import Mathlib

/-!
Verification of the cfile column-block storage core (kudu/src/cfile).

The repository provides `src/cfile/cfile-test.cc`; the implementation
headers (`cfile.h`, `index_block.h`) are not in the tree, so every
operation below is modelled from the specification, with the test file's
concrete assertions pinning the binary layout and the observable
behaviour.  Machine integers (`uint32_t`, `uint64_t`) are embedded as
`Nat`; bytes are `Nat` values below 256; byte strings are `List Nat`.
-/

namespace Kudu

/-- Size bound of a `uint32_t` value. -/
def U32 : Nat := 2 ^ 32

/-! ## Group-varint codec

Modelled from the spec: `IntBlockBuilder::AppendGroupVarInt32` is not in
`src/`; the layout follows spec §4.1 (one control byte whose four 2-bit
fields record length−1 for each value, most-significant field first,
then each value's minimal-length little-endian bytes) and the byte-exact
assertions of `TestCFile.TestGroupVarInt`. -/

/-- Number of bytes (1–4) needed to store a `u32` value: the minimal-length
field of the group-varint format.  A value of 0 still takes 1 byte. -/
def varlen (x : Nat) : Nat :=
  if x < 2 ^ 8 then 1
  else if x < 2 ^ 16 then 2
  else if x < 2 ^ 24 then 3
  else 4

/-- `n` little-endian bytes of `x` (low byte first). -/
def leBytes (x : Nat) : Nat → List Nat
  | 0 => []
  | n + 1 => x % 256 :: leBytes (x / 256) n

/-- Reassemble a value from its little-endian bytes. -/
def fromLE (bs : List Nat) : Nat :=
  bs.foldr (fun b acc => b + 256 * acc) 0

/-- Control byte of a group: four 2-bit `length−1` fields, the first
value's field in the two most significant bits. -/
def controlByte (a b c d : Nat) : Nat :=
  (varlen a - 1) * 64 + (varlen b - 1) * 16 + (varlen c - 1) * 4 + (varlen d - 1)

/-- Group-varint encoding of four `u32` values: control byte followed by
each value's minimal little-endian bytes. -/
def AppendGroupVarInt32 (a b c d : Nat) : List Nat :=
  controlByte a b c d ::
    (leBytes a (varlen a) ++ leBytes b (varlen b) ++
     leBytes c (varlen c) ++ leBytes d (varlen d))

/-- Modelled from the spec: the decoder (spec §4.1 "Decode reads the
control byte, extracts the four 2-bit lengths, and reconstructs each
value from its byte span") has no implementation in `src/`. -/
def DecodeGroupVarInt32 (bs : List Nat) : Option (Nat × Nat × Nat × Nat) :=
  match bs with
  | [] => none
  | c :: rest =>
    let la := c / 64 % 4 + 1
    let lb := c / 16 % 4 + 1
    let lc := c / 4 % 4 + 1
    let ld := c % 4 + 1
    if rest.length < la + lb + lc + ld then none
    else
      some (fromLE (rest.take la),
            fromLE ((rest.drop la).take lb),
            fromLE (((rest.drop la).drop lb).take lc),
            fromLE ((((rest.drop la).drop lb).drop lc).take ld))

/-! Basic facts about the codec pieces. -/

theorem varlen_pos (x : Nat) : 1 ≤ varlen x := by
  unfold varlen; split <;> [simp; skip]; split <;> [simp; skip]; split <;> simp

theorem varlen_le_four (x : Nat) : varlen x ≤ 4 := by
  unfold varlen; split <;> [simp; skip]; split <;> [simp; skip]; split <;> simp

theorem lt_of_varlen (x : Nat) (hx : x < U32) : x < 256 ^ varlen x := by
  unfold varlen
  split
  · simpa using ‹x < 2 ^ 8›
  · split
    · have : (256 : Nat) ^ 2 = 2 ^ 16 := by norm_num
      omega
    · split
      · have : (256 : Nat) ^ 3 = 2 ^ 24 := by norm_num
        omega
      · have : (256 : Nat) ^ 4 = 2 ^ 32 := by norm_num
        simp only [U32] at hx
        omega

theorem leBytes_length (x n : Nat) : (leBytes x n).length = n := by
  induction n generalizing x with
  | zero => rfl
  | succ n ih => simp [leBytes, ih]

theorem fromLE_leBytes (x n : Nat) (h : x < 256 ^ n) :
    fromLE (leBytes x n) = x := by
  induction n generalizing x with
  | zero => simp at h; simp [leBytes, fromLE, h]
  | succ n ih =>
    have hx : x / 256 < 256 ^ n := by
      rw [Nat.div_lt_iff_lt_mul (by norm_num)]
      calc x < 256 ^ (n + 1) := h
        _ = 256 ^ n * 256 := by ring
    have := ih (x / 256) hx
    simp only [leBytes, fromLE, List.foldr_cons] at *
    rw [this]
    omega

theorem controlByte_extract (a b c d : Nat) :
    controlByte a b c d / 64 % 4 + 1 = varlen a ∧
    controlByte a b c d / 16 % 4 + 1 = varlen b ∧
    controlByte a b c d / 4 % 4 + 1 = varlen c ∧
    controlByte a b c d % 4 + 1 = varlen d := by
  have h1 := varlen_pos a
  have h2 := varlen_pos b
  have h3 := varlen_pos c
  have h4 := varlen_pos d
  have h5 := varlen_le_four a
  have h6 := varlen_le_four b
  have h7 := varlen_le_four c
  have h8 := varlen_le_four d
  unfold controlByte
  omega

theorem take_drop_append4 {α : Type} (A B C D : List α) :
    ((A ++ (B ++ (C ++ D))).take A.length = A) ∧
    (((A ++ (B ++ (C ++ D))).drop A.length).take B.length = B) ∧
    ((((A ++ (B ++ (C ++ D))).drop A.length).drop B.length).take C.length = C) ∧
    (((((A ++ (B ++ (C ++ D))).drop A.length).drop B.length).drop C.length).take D.length = D) := by
  refine ⟨List.take_left A _, ?_, ?_, ?_⟩
  · rw [List.drop_left, List.take_left]
  · rw [List.drop_left, List.drop_left, List.take_left]
  · rw [List.drop_left, List.drop_left, List.drop_left]
    exact List.take_of_length_le (le_refl _)

/-- C1: decoding the group-varint encoding of any tuple of four `u32`
values `(a, b, c, d)` yields exactly `(a, b, c, d)`. -/
theorem DecodeGroupVarInt32_roundtrip (a b c d : Nat)
    (ha : a < U32) (hb : b < U32) (hc : c < U32) (hd : d < U32) :
    DecodeGroupVarInt32 (AppendGroupVarInt32 a b c d) = some (a, b, c, d) := by
  obtain ⟨f1, f2, f3, f4⟩ := controlByte_extract a b c d
  have eA : fromLE (leBytes a (varlen a)) = a := fromLE_leBytes _ _ (lt_of_varlen a ha)
  have eB : fromLE (leBytes b (varlen b)) = b := fromLE_leBytes _ _ (lt_of_varlen b hb)
  have eC : fromLE (leBytes c (varlen c)) = c := fromLE_leBytes _ _ (lt_of_varlen c hc)
  have eD : fromLE (leBytes d (varlen d)) = d := fromLE_leBytes _ _ (lt_of_varlen d hd)
  have lA : (leBytes a (varlen a)).length = varlen a := leBytes_length _ _
  have lB : (leBytes b (varlen b)).length = varlen b := leBytes_length _ _
  have lC : (leBytes c (varlen c)).length = varlen c := leBytes_length _ _
  have lD : (leBytes d (varlen d)).length = varlen d := leBytes_length _ _
  generalize hA : leBytes a (varlen a) = A at eA lA
  generalize hB : leBytes b (varlen b) = B at eB lB
  generalize hC : leBytes c (varlen c) = C at eC lC
  generalize hD : leBytes d (varlen d) = D at eD lD
  obtain ⟨t1, t2, t3, t4⟩ := take_drop_append4 A B C D
  simp only [AppendGroupVarInt32, DecodeGroupVarInt32, f1, f2, f3, f4]
  simp only [hA, hB, hC, hD]
  simp only [← lA, ← lB, ← lC, ← lD]
  simp only [List.append_assoc, List.length_append, t1, t2, t3, t4, eA, eB, eC, eD]
  rw [if_neg (by omega)]

/-- Witness for C1 at the concrete tuple from the test. -/
theorem DecodeGroupVarInt32_roundtrip_witness :
    DecodeGroupVarInt32 (AppendGroupVarInt32 256 2 3 65535) = some (256, 2, 3, 65535) :=
  DecodeGroupVarInt32_roundtrip 256 2 3 65535 (by norm_num [U32]) (by norm_num [U32])
    (by norm_num [U32]) (by norm_num [U32])

/-- C6: encoding `(256, 2, 3, 65535)` gives exactly 7 bytes: the control
byte `0b01000001` for lengths `(2,1,1,2)`, then the payload little-endian:
256 as 2 bytes, 2 as 1 byte, 3 as 1 byte, 65535 as 2 bytes
(`TestCFile.TestGroupVarInt`, lines 31–39). -/
theorem AppendGroupVarInt32_mixed_example :
    AppendGroupVarInt32 256 2 3 65535 = [0b01000001, 0x00, 0x01, 0x02, 0x03, 0xff, 0xff] ∧
    (AppendGroupVarInt32 256 2 3 65535).length = 7 := by
  constructor <;> rfl

/-- C10: in the control byte, the 2-bit `length−1` field of the first
value sits in the two most significant bits, followed by the second,
third and fourth values' fields in order of decreasing significance;
lengths `(2,1,1,2)` give control byte `0b01000001`. -/
theorem controlByte_field_positions (a b c d : Nat) :
    ∃ cb, (AppendGroupVarInt32 a b c d).head? = some cb ∧ cb < 256 ∧
      cb / 2 ^ 6 % 4 = varlen a - 1 ∧
      cb / 2 ^ 4 % 4 = varlen b - 1 ∧
      cb / 2 ^ 2 % 4 = varlen c - 1 ∧
      cb % 4 = varlen d - 1 ∧
      (AppendGroupVarInt32 256 2 3 65535).head? = some 0b01000001 := by
  refine ⟨controlByte a b c d, rfl, ?_, ?_, ?_, ?_, ?_, rfl⟩ <;>
  · have h1 := varlen_pos a
    have h2 := varlen_pos b
    have h3 := varlen_pos c
    have h4 := varlen_pos d
    have h5 := varlen_le_four a
    have h6 := varlen_le_four b
    have h7 := varlen_le_four c
    have h8 := varlen_le_four d
    unfold controlByte
    omega

/-! ## Int Block builder

Modelled from the spec: `IntBlockBuilder` (its `Add`, `Finish`, `Reset`,
`EstimateEncodedSize`) is not in `src/`; spec §4.2 describes grouping in
fours through the codec, zero-padding of a trailing partial group, and a
5-byte all-zero sentinel group as the `Finish()` output of an empty
builder (`TestCFile.TestIntBlockEncoder`, lines 51–55). -/

/-- Encode a run of values in groups of four, the trailing partial group
zero-padded. -/
def encodeGroups : List Nat → List Nat
  | [] => []
  | [a] => AppendGroupVarInt32 a 0 0 0
  | [a, b] => AppendGroupVarInt32 a b 0 0
  | [a, b, c] => AppendGroupVarInt32 a b c 0
  | a :: b :: c :: d :: rest => AppendGroupVarInt32 a b c d ++ encodeGroups rest

structure IntBlockBuilder where
  values : List Nat
deriving Repr, DecidableEq

namespace IntBlockBuilder

/-- A freshly constructed builder (the `WriterOptions` argument carries
no state observable here). -/
def init : IntBlockBuilder := ⟨[]⟩

def Add (b : IntBlockBuilder) (v : Nat) : IntBlockBuilder := ⟨b.values ++ [v % U32]⟩

def Reset (_b : IntBlockBuilder) : IntBlockBuilder := ⟨[]⟩

def Finish (b : IntBlockBuilder) : List Nat :=
  if b.values.isEmpty then AppendGroupVarInt32 0 0 0 0 else encodeGroups b.values

/-- Cheap conservative upper bound: 17 bytes per (partial) group plus the
sentinel. -/
def EstimateEncodedSize (b : IntBlockBuilder) : Nat :=
  5 + 17 * ((b.values.length + 3) / 4)

end IntBlockBuilder

/-- C5: a freshly constructed or freshly `Reset` Int Block builder's
`Finish()` is exactly the 5-byte all-zero sentinel group. -/
theorem IntBlockBuilder_empty_Finish (b : IntBlockBuilder) :
    IntBlockBuilder.Finish (IntBlockBuilder.Reset b) = [0, 0, 0, 0, 0] ∧
    (IntBlockBuilder.Finish (IntBlockBuilder.Reset b)).length = 5 ∧
    IntBlockBuilder.Finish IntBlockBuilder.init = [0, 0, 0, 0, 0] := by
  refine ⟨rfl, rfl, rfl⟩

/-! ## Block locator, error kinds, Index Block builder and reader

Modelled from the spec: `BlockPointer`, `Status` and the
`IndexBlockBuilder` / `IndexBlockReader` templates of `index_block.h`
are not in `src/`; the entry layout (count then fixed-width
key/offset/length triples, spec §4.3), strictly increasing keys and
floor search are pinned by `TestIndexBuilder.TestIndexWithInts`. -/

/-- Immutable (offset, length) pair identifying a stored block. -/
structure BlockPointer where
  offset : Nat
  size : Nat
deriving Repr, DecidableEq

/-- Error kinds of spec §7; operations return `Except Status α`. -/
inductive Status where
  | notFound
  | corruption
  | ioError
  | invalidUsage
deriving Repr, DecidableEq

structure IndexBlockBuilder where
  entries : List (Nat × BlockPointer)
deriving Repr, DecidableEq

namespace IndexBlockBuilder

def init : IndexBlockBuilder := ⟨[]⟩

/-- Append an entry; keys must arrive strictly increasing, a violation
is an invalid-usage condition. -/
def Add (b : IndexBlockBuilder) (key : Nat) (ptr : BlockPointer) :
    Except Status IndexBlockBuilder :=
  match b.entries.getLast? with
  | some e => if key ≤ e.1 then .error .invalidUsage else .ok ⟨b.entries ++ [(key, ptr)]⟩
  | none => .ok ⟨b.entries ++ [(key, ptr)]⟩

def Reset (_b : IndexBlockBuilder) : IndexBlockBuilder := ⟨[]⟩

/-- One serialized entry: key (4 bytes), offset (8 bytes), length
(4 bytes), all little-endian. -/
def entryBytes (e : Nat × BlockPointer) : List Nat :=
  leBytes e.1 4 ++ leBytes e.2.offset 8 ++ leBytes e.2.size 4

/-- Serialize the entry count followed by the entries. -/
def Finish (b : IndexBlockBuilder) : List Nat :=
  leBytes b.entries.length 4 ++ (b.entries.map entryBytes).flatten

/-- Near-upper-bound estimate used by the tree builder's flush policy. -/
def EstimateEncodedSize (b : IndexBlockBuilder) : Nat :=
  8 + 17 * b.entries.length

end IndexBlockBuilder

def parseEntries : Nat → List Nat → List (Nat × BlockPointer)
  | 0, _ => []
  | n + 1, bs =>
    (fromLE (bs.take 4), ⟨fromLE ((bs.drop 4).take 8), fromLE ((bs.drop 12).take 4)⟩) ::
      parseEntries n (bs.drop 16)

/-- Parse a serialized index block, validating count against length. -/
def IndexBlockReader.Parse (bs : List Nat) : Except Status (List (Nat × BlockPointer)) :=
  if bs.length < 4 then .error .corruption
  else
    let n := fromLE (bs.take 4)
    if (bs.drop 4).length = 16 * n then .ok (parseEntries n (bs.drop 4))
    else .error .corruption

def IndexBlockReader.Count (entries : List (Nat × BlockPointer)) : Nat :=
  entries.length

/-- Floor search over the parsed entries: locator of the entry with the
greatest key ≤ target, not-found below the smallest key.  (The
implementation binary-searches; over a sorted block this linear recursion
computes the same result, and only the result is specified.) -/
def IndexBlockReader.Search : List (Nat × BlockPointer) → Nat → Except Status BlockPointer
  | [], _ => .error .notFound
  | (key, ptr) :: rest, k =>
    if k < key then .error .notFound
    else
      match IndexBlockReader.Search rest k with
      | .ok p => .ok p
      | .error _ => .ok ptr

/-- Keys of an entry list. -/
def entryKeys (es : List (Nat × BlockPointer)) : List Nat := es.map Prod.fst

/-- Strictly-increasing-keys invariant of an index block. -/
abbrev SortedKeys (es : List (Nat × BlockPointer)) : Prop :=
  es.Pairwise (fun e1 e2 => e1.1 < e2.1)

theorem sorted_le_getLast {es : List (Nat × BlockPointer)} (hs : SortedKeys es)
    {x : Nat × BlockPointer} (hx : es.getLast? = some x) :
    ∀ e ∈ es, e.1 ≤ x.1 := by
  induction es with
  | nil => intro e he; cases he
  | cons a rest ih =>
    rw [SortedKeys, List.pairwise_cons] at hs
    intro e he
    cases rest with
    | nil =>
      simp only [List.getLast?_singleton, Option.some.injEq] at hx
      rcases List.mem_cons.mp he with he | he
      · subst he; subst hx; exact le_refl _
      · cases he
    | cons b rest' =>
      rw [List.getLast?_cons_cons] at hx
      rcases List.mem_cons.mp he with he | he
      · have hbx : b.1 ≤ x.1 := ih hs.2 hx b (List.mem_cons_self _ _)
        have hab : a.1 < b.1 := hs.1 b (List.mem_cons_self _ _)
        subst he; omega
      · exact ih hs.2 hx e he

theorem mem_of_getLast_eq {es : List (Nat × BlockPointer)} {x : Nat × BlockPointer}
    (hx : es.getLast? = some x) : x ∈ es := by
  obtain ⟨h, rfl⟩ := List.mem_getLast?_eq_getLast (Option.mem_def.mpr hx)
  exact List.getLast_mem h

theorem Search_err_iff (es : List (Nat × BlockPointer)) (hs : SortedKeys es) (k : Nat) :
    IndexBlockReader.Search es k = .error .notFound ↔ ∀ e ∈ es, k < e.1 := by
  induction es with
  | nil => simp [IndexBlockReader.Search]
  | cons a rest ih =>
    obtain ⟨key, ptr⟩ := a
    rw [SortedKeys, List.pairwise_cons] at hs
    simp only [IndexBlockReader.Search]
    split
    · constructor
      · intro _ e he
        rcases List.mem_cons.mp he with he | he
        · subst he; assumption
        · exact lt_trans ‹k < key› (hs.1 e he)
      · intro _; rfl
    · constructor
      · intro h
        cases hr : IndexBlockReader.Search rest k <;> simp [hr] at h
      · intro h
        exact absurd (h (key, ptr) (List.mem_cons_self _ _)) (by simpa using ‹¬ k < key›)

theorem Search_greatest (es : List (Nat × BlockPointer)) (hs : SortedKeys es) (k : Nat) :
    ∀ e ∈ es, e.1 ≤ k → (∀ e2 ∈ es, e2.1 ≤ k → e2.1 ≤ e.1) →
      IndexBlockReader.Search es k = .ok e.2 := by
  induction es with
  | nil => intro e he; cases he
  | cons a rest ih =>
    obtain ⟨key, ptr⟩ := a
    rw [SortedKeys, List.pairwise_cons] at hs
    intro e he hek hmax
    rcases List.mem_cons.mp he with he | he
    · subst he
      have hrest : ∀ e2 ∈ rest, k < e2.1 := by
        intro e2 h2
        by_contra hcon
        push_neg at hcon
        have h1 := hmax e2 (List.mem_cons_of_mem _ h2) hcon
        have h2' := hs.1 e2 h2
        simp only at h1 h2'
        omega
      have herr := (Search_err_iff rest hs.2 k).mpr hrest
      simp only [IndexBlockReader.Search, herr]
      rw [if_neg (by simp only at hek; omega)]
    · have hkey : key < e.1 := hs.1 e he
      have hok := ih hs.2 e he hek (fun e2 h2 h2k => hmax e2 (List.mem_cons_of_mem _ h2) h2k)
      simp only [IndexBlockReader.Search, hok]
      rw [if_neg (by omega)]

/-- C2: over a parsed index block with strictly increasing keys, `Search`
is floor search: it errors with not-found exactly when the target is
below every key; it returns the locator of the entry with the greatest
key ≤ target; a target at or above the maximum key yields the last
entry's locator; an exact match yields that entry's locator. -/
theorem IndexBlockReader_Search_floor (es : List (Nat × BlockPointer))
    (hs : SortedKeys es) (k : Nat) :
    (IndexBlockReader.Search es k = .error .notFound ↔ ∀ e ∈ es, k < e.1) ∧
    (∀ e ∈ es, e.1 ≤ k → (∀ e2 ∈ es, e2.1 ≤ k → e2.1 ≤ e.1) →
      IndexBlockReader.Search es k = .ok e.2) ∧
    (∀ e, es.getLast? = some e → e.1 ≤ k → IndexBlockReader.Search es k = .ok e.2) ∧
    (∀ e ∈ es, e.1 = k → IndexBlockReader.Search es k = .ok e.2) := by
  refine ⟨Search_err_iff es hs k, Search_greatest es hs k, ?_, ?_⟩
  · intro e hlast hek
    exact Search_greatest es hs k e (mem_of_getLast_eq hlast) hek
      (fun e2 h2 _ => sorted_le_getLast hs hlast e2 h2)
  · intro e he hek
    exact Search_greatest es hs k e he (le_of_eq hek)
      (fun e2 _ h2k => hek ▸ h2k)

/-- The four-entry index block of `TestIndexBuilder.TestIndexWithInts`. -/
def demoEntries : List (Nat × BlockPointer) :=
  [(10, ⟨90010, 65536⟩), (20, ⟨90020, 65536⟩), (30, ⟨90030, 65536⟩), (40, ⟨90040, 65536⟩)]

/-- Witness for C2: the searches asserted by the test. -/
theorem IndexBlockReader_Search_floor_witness :
    IndexBlockReader.Search demoEntries 5 = .error .notFound ∧
    IndexBlockReader.Search demoEntries 15 = .ok ⟨90010, 65536⟩ ∧
    IndexBlockReader.Search demoEntries 30 = .ok ⟨90030, 65536⟩ ∧
    IndexBlockReader.Search demoEntries 45 = .ok ⟨90040, 65536⟩ := by
  refine ⟨?_, ?_, ?_, ?_⟩
  · exact (IndexBlockReader_Search_floor demoEntries (by decide) 5).1.mpr (by decide)
  · exact (IndexBlockReader_Search_floor demoEntries (by decide) 15).2.1
      (10, ⟨90010, 65536⟩) (by decide) (by decide) (by decide)
  · exact (IndexBlockReader_Search_floor demoEntries (by decide) 30).2.2.2
      (30, ⟨90030, 65536⟩) (by decide) (by decide)
  · exact (IndexBlockReader_Search_floor demoEntries (by decide) 45).2.2.1
      (40, ⟨90040, 65536⟩) (by decide) (by decide)

/-- The builder of `TestIndexBuilder.TestIndexWithInts` after the four
`Add` calls. -/
def demoIndexBuilder : IndexBlockBuilder := ⟨demoEntries⟩

/-- C4 counterexample: at the four-entry block of the test, the estimate
(76 bytes) is NOT within 75%–100% of the serialized size (68 bytes); it
exceeds the serialized size, as the test's own assertions
(`EXPECT_LT(s.size(), est_size)`) require. -/
theorem IndexBlock_estimate_not_within_serialized :
    ¬ (3 * (IndexBlockBuilder.Finish demoIndexBuilder).length
         ≤ 4 * IndexBlockBuilder.EstimateEncodedSize demoIndexBuilder ∧
       IndexBlockBuilder.EstimateEncodedSize demoIndexBuilder
         ≤ (IndexBlockBuilder.Finish demoIndexBuilder).length) := by
  decide

/-- C4 (amended): for the four-entry block of the test, `Count()` of the
parsed block is 4 and the true serialized size lies strictly within
75%–100% of `EstimateEncodedSize()` (the estimate is a near-upper
bound). -/
theorem IndexBlock_count_and_estimate :
    IndexBlockReader.Parse (IndexBlockBuilder.Finish demoIndexBuilder) = .ok demoEntries ∧
    IndexBlockReader.Count demoEntries = 4 ∧
    (IndexBlockBuilder.Finish demoIndexBuilder).length
      < IndexBlockBuilder.EstimateEncodedSize demoIndexBuilder ∧
    3 * IndexBlockBuilder.EstimateEncodedSize demoIndexBuilder
      < 4 * (IndexBlockBuilder.Finish demoIndexBuilder).length := by
  refine ⟨rfl, rfl, by decide, by decide⟩

/-- Run a sequence of `Add` calls, stopping at the first error. -/
def addAll (b : IndexBlockBuilder) : List (Nat × BlockPointer) → Except Status IndexBlockBuilder
  | [] => .ok b
  | op :: ops =>
    match IndexBlockBuilder.Add b op.1 op.2 with
    | .ok b1 => addAll b1 ops
    | .error e => .error e

theorem Add_ok_sorted {b b' : IndexBlockBuilder} {k : Nat} {p : BlockPointer}
    (hb : SortedKeys b.entries) (h : IndexBlockBuilder.Add b k p = .ok b') :
    SortedKeys b'.entries := by
  unfold IndexBlockBuilder.Add at h
  split at h
  · rename_i e hlast
    split at h
    · cases h
    · rename_i hk
      cases h
      rw [SortedKeys, List.pairwise_append]
      refine ⟨hb, List.pairwise_singleton _ _, ?_⟩
      intro e2 h2 x hx
      simp only [List.mem_singleton] at hx
      subst hx
      have := sorted_le_getLast hb hlast e2 h2
      omega
  · rename_i hlast
    cases h
    have hnil : b.entries = [] := List.getLast?_eq_none_iff.mp hlast
    simp [hnil, SortedKeys]

theorem addAll_ok_sorted {b b' : IndexBlockBuilder}
    (hb : SortedKeys b.entries) {ops : List (Nat × BlockPointer)}
    (h : addAll b ops = .ok b') : SortedKeys b'.entries := by
  induction ops generalizing b with
  | nil => cases h; exact hb
  | cons op ops ih =>
    unfold addAll at h
    cases hAdd : IndexBlockBuilder.Add b op.1 op.2 with
    | error e => rw [hAdd] at h; cases h
    | ok b1 => rw [hAdd] at h; exact ih (Add_ok_sorted hb hAdd) h

/-- C7: keys supplied to the Index Block builder must be strictly
increasing: any sequence of successful `Add` calls starting from a fresh
builder leaves the entries strictly increasing by key, and an `Add`
whose key is not strictly above the previously added key fails with
invalid-usage. -/
theorem IndexBlockBuilder_Add_strictly_increasing
    (ops : List (Nat × BlockPointer)) (b' : IndexBlockBuilder)
    (hops : addAll IndexBlockBuilder.init ops = .ok b')
    (b : IndexBlockBuilder) (k : Nat) (p : BlockPointer) (e : Nat × BlockPointer)
    (hlast : b.entries.getLast? = some e) (hk : k ≤ e.1) :
    SortedKeys b'.entries ∧
    IndexBlockBuilder.Add b k p = .error .invalidUsage := by
  constructor
  · exact addAll_ok_sorted (by simp [IndexBlockBuilder.init, SortedKeys]) hops
  · unfold IndexBlockBuilder.Add
    split
    · rename_i e' heq
      rw [hlast] at heq
      cases heq
      rw [if_pos hk]
    · rename_i heq
      rw [hlast] at heq
      cases heq

/-- Witness for C7: the test's four `Add` calls succeed and stay sorted;
re-adding key 40 on the resulting builder is invalid usage. -/
theorem IndexBlockBuilder_Add_strictly_increasing_witness :
    SortedKeys demoIndexBuilder.entries ∧
    IndexBlockBuilder.Add demoIndexBuilder 40 ⟨0, 0⟩ = .error .invalidUsage :=
  IndexBlockBuilder_Add_strictly_increasing demoEntries demoIndexBuilder rfl
    demoIndexBuilder 40 ⟨0, 0⟩ (40, ⟨90040, 65536⟩) (by decide) (by decide)

/-- C9: `Reset()` on any Int Block builder or Index Block builder
reproduces the exact observable state of a freshly constructed builder:
the whole state, hence also `EstimateEncodedSize()` and the `Finish()`
output. -/
theorem Reset_restores_fresh (b : IntBlockBuilder) (ib : IndexBlockBuilder) :
    IntBlockBuilder.Reset b = IntBlockBuilder.init ∧
    (IntBlockBuilder.Reset b).EstimateEncodedSize = IntBlockBuilder.init.EstimateEncodedSize ∧
    (IntBlockBuilder.Reset b).Finish = IntBlockBuilder.init.Finish ∧
    IndexBlockBuilder.Reset ib = IndexBlockBuilder.init ∧
    (IndexBlockBuilder.Reset ib).EstimateEncodedSize
      = IndexBlockBuilder.init.EstimateEncodedSize ∧
    (IndexBlockBuilder.Reset ib).Finish = IndexBlockBuilder.init.Finish :=
  ⟨rfl, rfl, rfl, rfl, rfl, rfl⟩

/-! ## Writer / Tree Builder

Modelled from the spec: `Writer`, `TreeBuilder` and their flush logic
(`cfile.h`/`cfile.cc`) are not in `src/`; spec §4.4 fixes the behaviour:
values get sequential logical keys; when a builder's estimate exceeds
the block-size budget the block is flushed to the sink, its locator
(pre-write offset, written length) paired with the block's lowest key is
added to the next index level, recursively, levels created on demand;
`Finish` flushes the leaf then every index level bottom-up leaving one
root locator in the closing metadata.  The append-only sink is embedded
as a list of (offset, block) pairs at strictly increasing offsets, a
block being the decoded form of the bytes written there. -/

/-- A flushed block: either a leaf run of values whose logical keys start
at `firstKey`, or an index block of (key, locator) entries. -/
inductive Block where
  | leaf (firstKey : Nat) (values : List Nat)
  | index (entries : List (Nat × BlockPointer))
deriving Repr, DecidableEq

/-- The sink contents: blocks at their write offsets, append-only. -/
abbrev BlockFile := List (Nat × Block)

def lookupBlock (file : BlockFile) (off : Nat) : Option Block :=
  (file.find? (fun e => e.1 == off)).map Prod.snd

/-- Serialized length of a leaf block: what the Int Block builder writes. -/
def leafBlockSize (vs : List Nat) : Nat := (IntBlockBuilder.Finish ⟨vs⟩).length

/-- Serialized length of an index block: what the Index Block builder writes. -/
def indexBlockSize (es : List (Nat × BlockPointer)) : Nat :=
  (IndexBlockBuilder.Finish ⟨es⟩).length

/-- Resolve logical key `k` from the locator `ptr`: descend through index
blocks by floor search until a leaf holds the key.  `fuel` bounds the
descent depth (the stored tree is finite). -/
def resolve (file : BlockFile) : Nat → BlockPointer → Nat → Option Nat
  | 0, _, _ => none
  | fuel + 1, ptr, k =>
    match lookupBlock file ptr.offset with
    | none => none
    | some (.leaf fk vs) => if fk ≤ k then vs[k - fk]? else none
    | some (.index es) =>
      match IndexBlockReader.Search es k with
      | .ok p => resolve file fuel p k
      | .error _ => none

/-- Tree-builder session state: the pending leaf builder and its first
logical key, one pending index builder per level (level 0 first), the
sink contents and the cumulative write offset. -/
structure TreeBuilder where
  leafv : List Nat
  leafFirstKey : Nat
  levels : List (List (Nat × BlockPointer))
  file : BlockFile
  off : Nat
deriving Repr, DecidableEq

def initTree : TreeBuilder := ⟨[], 0, [], [], 0⟩

/-- Next sequential logical key. -/
def TreeBuilder.nextKey (t : TreeBuilder) : Nat := t.leafFirstKey + t.leafv.length

/-- Record entry `e` in the given index level; if that level's builder
now exceeds the budget, flush it and recursively record its locator one
level up, creating levels on demand. -/
def pushEntry (budget : Nat) : List (List (Nat × BlockPointer)) → (Nat × BlockPointer) →
    BlockFile → Nat → List (List (Nat × BlockPointer)) × BlockFile × Nat
  | [], e, file, off => ([[e]], file, off)
  | lvl :: rest, e, file, off =>
    let lvl' := lvl ++ [e]
    if budget < IndexBlockBuilder.EstimateEncodedSize ⟨lvl'⟩ then
      let sz := indexBlockSize lvl'
      let fk := ((lvl').headD e).1
      let out := pushEntry budget rest (fk, ⟨off, sz⟩) (file ++ [(off, .index lvl')]) (off + sz)
      ([] :: out.1, out.2)
    else
      (lvl' :: rest, file, off)

/-- Append one value under the next sequential logical key; flush the
leaf block when its estimate exceeds the budget. -/
def TreeBuilder.Append (budget : Nat) (t : TreeBuilder) (v : Nat) : TreeBuilder :=
  let leafv' := t.leafv ++ [v]
  if budget < IntBlockBuilder.EstimateEncodedSize ⟨leafv'⟩ then
    let sz := leafBlockSize leafv'
    let out := pushEntry budget t.levels (t.leafFirstKey, ⟨t.off, sz⟩)
      (t.file ++ [(t.off, .leaf t.leafFirstKey leafv')]) (t.off + sz)
    { leafv := [], leafFirstKey := t.leafFirstKey + leafv'.length,
      levels := out.1, file := out.2.1, off := out.2.2 }
  else
    { t with leafv := leafv' }

def appendAll (budget : Nat) (t : TreeBuilder) (vs : List Nat) : TreeBuilder :=
  vs.foldl (TreeBuilder.Append budget) t

/-- Flush every partially filled index level bottom-up, carrying each
flushed block's locator into the level above; the final outstanding
locator is the root. -/
def finishUp : List (List (Nat × BlockPointer)) → Option (Nat × BlockPointer) →
    BlockFile → Nat → Option BlockPointer × BlockFile × Nat
  | [], none, file, off => (none, file, off)
  | [], some e, file, off => (some e.2, file, off)
  | lvl :: rest, carry, file, off =>
    match lvl ++ carry.toList with
    | [] => finishUp rest none file off
    | e1 :: es =>
      let sz := indexBlockSize (e1 :: es)
      finishUp rest (some (e1.1, ⟨off, sz⟩)) (file ++ [(off, .index (e1 :: es))]) (off + sz)

/-- Flush the pending leaf (if any), then every index level bottom-up;
returns the root locator, the final sink contents and offset. -/
def TreeBuilder.Finish (t : TreeBuilder) : Option BlockPointer × BlockFile × Nat :=
  if t.leafv.isEmpty then finishUp t.levels none t.file t.off
  else
    let sz := leafBlockSize t.leafv
    finishUp t.levels (some (t.leafFirstKey, ⟨t.off, sz⟩))
      (t.file ++ [(t.off, .leaf t.leafFirstKey t.leafv)]) (t.off + sz)

/-- Writer states of spec §4.4. -/
inductive WriterState where
  | uninitialized
  | started
  | appending
  | finished
  | failed
deriving Repr, DecidableEq

/-- Closing structured metadata: an opaque identifier plus the root
locator. -/
structure FileMetadata where
  identifier : String
  root : BlockPointer
deriving Repr, DecidableEq

structure Writer where
  state : WriterState
  budget : Nat
  tree : TreeBuilder
  ident : String
deriving Repr, DecidableEq

def Writer.init (budget : Nat) (ident : String) : Writer :=
  ⟨.uninitialized, budget, initTree, ident⟩

def Writer.Start (w : Writer) : Except Status Writer :=
  match w.state with
  | .uninitialized => .ok { w with state := .started }
  | _ => .error .invalidUsage

/-- Mutation is rejected after `Finish` or failure. -/
def Writer.Append (w : Writer) (v : Nat) : Except Status Writer :=
  match w.state with
  | .started => .ok { w with state := .appending, tree := w.tree.Append w.budget v }
  | .appending => .ok { w with state := .appending, tree := w.tree.Append w.budget v }
  | _ => .error .invalidUsage

def Writer.appendAll (w : Writer) (vs : List Nat) : Except Status Writer :=
  match vs with
  | [] => .ok w
  | v :: rest =>
    match w.Append v with
    | .ok w' => w'.appendAll rest
    | .error e => .error e

def Writer.Finish (w : Writer) : Except Status (Writer × FileMetadata × BlockFile) :=
  match w.state with
  | .started =>
    match w.tree.Finish with
    | (some root, file, _) => .ok ({ w with state := .finished }, ⟨w.ident, root⟩, file)
    | (none, _, _) => .error .invalidUsage
  | .appending =>
    match w.tree.Finish with
    | (some root, file, _) => .ok ({ w with state := .finished }, ⟨w.ident, root⟩, file)
    | (none, _, _) => .error .invalidUsage
  | _ => .error .invalidUsage

theorem Finish_ok_state {w w' : Writer} {m : FileMetadata} {f : BlockFile}
    (h : Writer.Finish w = .ok (w', m, f)) : w'.state = .finished := by
  unfold Writer.Finish at h
  split at h
  · split at h
    · simp only [Except.ok.injEq, Prod.mk.injEq] at h
      rw [← h.1]
    · cases h
  · split at h
    · simp only [Except.ok.injEq, Prod.mk.injEq] at h
      rw [← h.1]
    · cases h
  · cases h

/-- C8: mutation after termination is rejected: after a completed
`Finish()`, any `Append` on the writer fails with invalid-usage, and any
`Append` on a writer that has entered the failed state likewise fails
with invalid-usage. -/
theorem Writer_Append_after_Finish (w w' : Writer) (m : FileMetadata) (f : BlockFile)
    (v : Nat) (wf : Writer)
    (h : Writer.Finish w = .ok (w', m, f)) (hf : wf.state = .failed) :
    Writer.Append w' v = .error .invalidUsage ∧
    Writer.Append wf v = .error .invalidUsage := by
  constructor
  · have hs : w'.state = .finished := Finish_ok_state h
    obtain ⟨st, bu, tr, idt⟩ := w'
    simp only [Writer.state] at hs
    subst hs
    rfl
  · obtain ⟨st, bu, tr, idt⟩ := wf
    simp only [Writer.state] at hf
    subst hf
    rfl

/-- Witness for C8: a concrete started writer with one appended value
finishes successfully and the subsequent `Append` is rejected, and an
`Append` on a concrete failed writer is rejected too. -/
theorem Writer_Append_after_Finish_witness :
    Writer.Append ⟨.finished, 100, ⟨[0], 0, [], [], 0⟩, "test"⟩ 1
      = .error .invalidUsage ∧
    Writer.Append ⟨.failed, 100, ⟨[], 0, [], [], 0⟩, "test"⟩ 1
      = .error .invalidUsage :=
  Writer_Append_after_Finish
    ⟨.appending, 100, ⟨[0], 0, [], [], 0⟩, "test"⟩
    ⟨.finished, 100, ⟨[0], 0, [], [], 0⟩, "test"⟩
    ⟨"test", ⟨0, 5⟩⟩ [(0, .leaf 0 [0])] 1
    ⟨.failed, 100, ⟨[], 0, [], [], 0⟩, "test"⟩ rfl rfl

/-! Infrastructure for the end-to-end theorem: the sink is append-only at
strictly increasing offsets, so lookups and resolutions persist as the
file grows. -/

/-- All offsets recorded in the file are below `off` (the next write
position). -/
def offsetsBelow (file : BlockFile) (off : Nat) : Prop :=
  ∀ e ∈ file, e.1 < off

theorem AppendGroupVarInt32_ne_nil (a b c d : Nat) : AppendGroupVarInt32 a b c d ≠ [] := by
  simp [AppendGroupVarInt32]

theorem indexBlockSize_pos (es : List (Nat × BlockPointer)) : 0 < indexBlockSize es := by
  unfold indexBlockSize IndexBlockBuilder.Finish
  simp [leBytes_length]

theorem encodeGroups_ne_nil (v : Nat) (rest : List Nat) : encodeGroups (v :: rest) ≠ [] := by
  rcases rest with _ | ⟨b, _ | ⟨c, _ | ⟨d, rest'⟩⟩⟩ <;> simp [encodeGroups, AppendGroupVarInt32]

theorem leafBlockSize_pos (vs : List Nat) : 0 < leafBlockSize vs := by
  unfold leafBlockSize IntBlockBuilder.Finish
  split
  · simp [AppendGroupVarInt32]
  · rename_i h
    cases hv : vs with
    | nil => subst hv; simp at h
    | cons v rest =>
      exact List.length_pos.mpr (encodeGroups_ne_nil v rest)

theorem lookup_mono (file ext : BlockFile) (off : Nat) (b : Block)
    (h : lookupBlock file off = some b) :
    lookupBlock (file ++ ext) off = some b := by
  unfold lookupBlock at *
  induction file with
  | nil => simp at h
  | cons e f ih =>
    cases he : (e.1 == off) with
    | true => simp [List.find?, he] at h ⊢; exact h
    | false => simp only [List.cons_append, List.find?, he] at h ⊢; exact ih h

theorem lookup_append_self (file : BlockFile) (off : Nat) (b : Block)
    (hof : offsetsBelow file off) :
    lookupBlock (file ++ [(off, b)]) off = some b := by
  unfold lookupBlock
  induction file with
  | nil => simp [List.find?]
  | cons e f ih =>
    have he : (e.1 == off) = false := by
      have := hof e (List.mem_cons_self _ _)
      simp only [beq_eq_false_iff_ne, ne_eq]
      omega
    simp only [List.cons_append, List.find?, he]
    exact ih (fun x hx => hof x (List.mem_cons_of_mem _ hx))

theorem resolve_mono_file (file ext : BlockFile) (fuel : Nat) (p : BlockPointer) (k : Nat)
    (v : Nat) (h : resolve file fuel p k = some v) :
    resolve (file ++ ext) fuel p k = some v := by
  induction fuel generalizing p with
  | zero => simp [resolve] at h
  | succ fuel ih =>
    unfold resolve at h ⊢
    cases hl : lookupBlock file p.offset with
    | none => rw [hl] at h; cases h
    | some blk =>
      rw [hl] at h
      rw [lookup_mono file ext _ _ hl]
      cases blk with
      | leaf fk vs => exact h
      | index es =>
        simp only [] at h ⊢
        cases hs : IndexBlockReader.Search es k with
        | error e => rw [hs] at h; simp at h
        | ok p' => rw [hs] at h; exact ih p' h

theorem resolve_mono_fuel (file : BlockFile) (f1 f2 : Nat) (p : BlockPointer) (k v : Nat)
    (hle : f1 ≤ f2) (h : resolve file f1 p k = some v) :
    resolve file f2 p k = some v := by
  induction f1 generalizing f2 p with
  | zero => simp [resolve] at h
  | succ f1 ih =>
    obtain ⟨f2', rfl⟩ : ∃ f2', f2 = f2' + 1 := ⟨f2 - 1, by omega⟩
    unfold resolve at h ⊢
    cases hl : lookupBlock file p.offset with
    | none => rw [hl] at h; cases h
    | some blk =>
      rw [hl] at h
      cases blk with
      | leaf fk vs => exact h
      | index es =>
        simp only [] at h ⊢
        cases hs : IndexBlockReader.Search es k with
        | error e => rw [hs] at h; simp at h
        | ok p' => rw [hs] at h; exact ih f2' p' (by omega) h

/-- Locator `ptr` resolves every key in `[lo, hi)` to the corresponding
element of `vs`. -/
def Covers (file : BlockFile) (ptr : BlockPointer) (vs : List Nat) (lo hi : Nat) : Prop :=
  ∀ k, lo ≤ k → k < hi → ∃ fuel v, vs[k]? = some v ∧ resolve file fuel ptr k = some v

theorem Covers_mono_file {file : BlockFile} (ext : BlockFile) {ptr : BlockPointer}
    {vs : List Nat} {lo hi : Nat} (h : Covers file ptr vs lo hi) :
    Covers (file ++ ext) ptr vs lo hi := by
  intro k h1 h2
  obtain ⟨fuel, v, hv, hr⟩ := h k h1 h2
  exact ⟨fuel, v, hv, resolve_mono_file _ _ _ _ _ _ hr⟩

theorem Covers_mono_vs {file : BlockFile} {ptr : BlockPointer} {vs : List Nat}
    (more : List Nat) {lo hi : Nat} (h : Covers file ptr vs lo hi) :
    Covers file ptr (vs ++ more) lo hi := by
  intro k h1 h2
  obtain ⟨fuel, v, hv, hr⟩ := h k h1 h2
  have hk : k < vs.length := by
    by_contra hk
    push_neg at hk
    rw [List.getElem?_eq_none hk] at hv
    cases hv
  refine ⟨fuel, v, ?_, hr⟩
  rw [List.getElem?_append_left hk]
  exact hv

/-- First key of an entry list, or the default `d` when empty. -/
def headKeyD (es : List (Nat × BlockPointer)) (d : Nat) : Nat :=
  match es with
  | [] => d
  | e :: _ => e.1

/-- Keys strictly increase along the list and stay below `hi`. -/
def KeysBelow : List (Nat × BlockPointer) → Nat → Prop
  | [], _ => True
  | e :: rest, hi => e.1 < headKeyD rest hi ∧ KeysBelow rest hi

/-- Each entry covers the key range from its own key up to the next
entry's key (the last entry up to `hi`). -/
def ChainCovers (file : BlockFile) (vs : List Nat) :
    List (Nat × BlockPointer) → Nat → Prop
  | [], _ => True
  | e :: rest, hi => Covers file e.2 vs e.1 (headKeyD rest hi) ∧ ChainCovers file vs rest hi

theorem headKeyD_append (xs : List (Nat × BlockPointer)) (e : Nat × BlockPointer) (d : Nat) :
    headKeyD (xs ++ [e]) d = headKeyD xs e.1 := by
  cases xs <;> rfl

theorem KeysBelow_lt (es : List (Nat × BlockPointer)) (hi : Nat) (h : KeysBelow es hi) :
    ∀ e ∈ es, e.1 < hi := by
  induction es with
  | nil => intro e he; cases he
  | cons a rest ih =>
    intro e he
    obtain ⟨h1, h2⟩ := h
    rcases List.mem_cons.mp he with he | he
    · subst he
      cases rest with
      | nil => simpa only [headKeyD] using h1
      | cons b rest' =>
        have hb := ih h2 b (List.mem_cons_self _ _)
        simp only [headKeyD] at h1
        omega
    · exact ih h2 e he

theorem KeysBelow_append (lvl : List (Nat × BlockPointer)) (e : Nat × BlockPointer)
    (nb : Nat) (h : KeysBelow lvl e.1) (he : e.1 < nb) :
    KeysBelow (lvl ++ [e]) nb := by
  induction lvl with
  | nil => exact ⟨he, trivial⟩
  | cons a rest ih =>
    obtain ⟨h1, h2⟩ := h
    simp only [List.cons_append]
    refine ⟨?_, ih h2⟩
    rw [headKeyD_append]
    exact h1

theorem ChainCovers_append (file : BlockFile) (vs : List Nat)
    (lvl : List (Nat × BlockPointer)) (e : Nat × BlockPointer) (nb : Nat)
    (h : ChainCovers file vs lvl e.1) (he : Covers file e.2 vs e.1 nb) :
    ChainCovers file vs (lvl ++ [e]) nb := by
  induction lvl with
  | nil => exact ⟨he, trivial⟩
  | cons a rest ih =>
    obtain ⟨h1, h2⟩ := h
    simp only [List.cons_append]
    refine ⟨?_, ih h2⟩
    rw [headKeyD_append]
    exact h1

theorem ChainCovers_mono_file (file ext : BlockFile) (vs : List Nat)
    (es : List (Nat × BlockPointer)) (hi : Nat) (h : ChainCovers file vs es hi) :
    ChainCovers (file ++ ext) vs es hi := by
  induction es with
  | nil => trivial
  | cons a rest ih => exact ⟨Covers_mono_file ext h.1, ih h.2⟩

theorem ChainCovers_mono_vs (file : BlockFile) (vs more : List Nat)
    (es : List (Nat × BlockPointer)) (hi : Nat) (h : ChainCovers file vs es hi) :
    ChainCovers file (vs ++ more) es hi := by
  induction es with
  | nil => trivial
  | cons a rest ih => exact ⟨Covers_mono_vs more h.1, ih h.2⟩

/-- Floor search inside one stored index block lands on the entry whose
range contains the target key. -/
theorem chain_search (file : BlockFile) (vs : List Nat) :
    ∀ (e : Nat × BlockPointer) (rest : List (Nat × BlockPointer)) (hi k : Nat),
      KeysBelow (e :: rest) hi → ChainCovers file vs (e :: rest) hi →
      e.1 ≤ k → k < hi →
      ∃ p, IndexBlockReader.Search (e :: rest) k = .ok p ∧
        ∃ fuel v, vs[k]? = some v ∧ resolve file fuel p k = some v := by
  intro e rest
  induction rest generalizing e with
  | nil =>
    intro hi k hkb hcc hk1 hk2
    obtain ⟨p, hp⟩ : ∃ p, IndexBlockReader.Search [e] k = .ok p := by
      obtain ⟨key, ptr⟩ := e
      simp only [IndexBlockReader.Search]
      rw [if_neg (by simp only at hk1; omega)]
      exact ⟨ptr, rfl⟩
    refine ⟨p, hp, ?_⟩
    have hp' : p = e.2 := by
      obtain ⟨key, ptr⟩ := e
      simp only [IndexBlockReader.Search] at hp
      rw [if_neg (by simp only at hk1; omega)] at hp
      cases hp
      rfl
    subst hp'
    exact hcc.1 k hk1 hk2
  | cons e2 rest' ih =>
    intro hi k hkb hcc hk1 hk2
    by_cases hk : k < e2.1
    · obtain ⟨key, ptr⟩ := e
      refine ⟨ptr, ?_, ?_⟩
      · obtain ⟨key2, ptr2⟩ := e2
        simp only [IndexBlockReader.Search]
        rw [if_neg (by simp only at hk1; omega), if_pos (by simp only at hk; omega)]
      · have := hcc.1
        simp only [headKeyD] at this
        exact this k hk1 hk
    · push_neg at hk
      obtain ⟨p, hps, hcov⟩ := ih e2 hi k hkb.2 hcc.2 hk hk2
      refine ⟨p, ?_, hcov⟩
      obtain ⟨key, ptr⟩ := e
      have hke : key < e2.1 := by
        have := hkb.1
        simpa only [headKeyD] using this
      obtain ⟨key2, ptr2⟩ := e2
      simp only [IndexBlockReader.Search] at hps ⊢
      rw [if_neg (show ¬ k < key2 by simp only at hk; omega)] at hps
      rw [if_neg (show ¬ k < key by simp only at hk1; omega),
        if_neg (show ¬ k < key2 by simp only at hk; omega), hps]

/-- A stored index block whose entries chain-cover `[headKey, hi)`
resolves every key in that range. -/
theorem index_block_covers (file : BlockFile) (off sz : Nat)
    (e : Nat × BlockPointer) (rest : List (Nat × BlockPointer)) (hi : Nat) (vs : List Nat)
    (hlook : lookupBlock file off = some (.index (e :: rest)))
    (hkb : KeysBelow (e :: rest) hi)
    (hcc : ChainCovers file vs (e :: rest) hi) :
    Covers file ⟨off, sz⟩ vs e.1 hi := by
  intro k h1 h2
  obtain ⟨p, hps, fuel, v, hv, hr⟩ := chain_search file vs e rest hi k hkb hcc h1 h2
  refine ⟨fuel + 1, v, hv, ?_⟩
  unfold resolve
  rw [hlook]
  simp only []
  rw [hps]
  exact hr

/-- A stored leaf block holding the tail `vs.drop fk` resolves every key
from `fk` to the end of `vs`. -/
theorem leaf_covers (file : BlockFile) (off sz fk : Nat) (vs : List Nat)
    (hlook : lookupBlock file off = some (.leaf fk (vs.drop fk))) :
    Covers file ⟨off, sz⟩ vs fk vs.length := by
  intro k h1 h2
  refine ⟨1, vs.get ⟨k, h2⟩, List.getElem?_eq_getElem h2, ?_⟩
  unfold resolve
  rw [hlook]
  simp only []
  rw [if_pos h1, List.getElem?_drop]
  have : fk + (k - fk) = k := by omega
  rw [this, List.getElem?_eq_getElem h2]
  rfl

/-- Invariant of the pending index levels (level 0 first): each level's
entries increase strictly and chain-cover up to the bound handed down
from below (the pending leaf's first key for level 0, the first key of
the level below otherwise); above the top level the remaining bound is 0,
so the levels jointly cover everything below `bound`. -/
def StackOK (file : BlockFile) (vs : List Nat) :
    List (List (Nat × BlockPointer)) → Nat → Prop
  | [], bound => bound = 0
  | lvl :: rest, bound =>
      KeysBelow lvl bound ∧ ChainCovers file vs lvl bound ∧
      StackOK file vs rest (headKeyD lvl bound)

theorem StackOK_mono_file (file ext : BlockFile) (vs : List Nat) :
    ∀ (levels : List (List (Nat × BlockPointer))) (bound : Nat),
      StackOK file vs levels bound → StackOK (file ++ ext) vs levels bound := by
  intro levels
  induction levels with
  | nil => intro bound h; exact h
  | cons lvl rest ih =>
    intro bound h
    exact ⟨h.1, ChainCovers_mono_file _ _ _ _ _ h.2.1, ih _ h.2.2⟩

theorem StackOK_mono_vs (file : BlockFile) (vs more : List Nat) :
    ∀ (levels : List (List (Nat × BlockPointer))) (bound : Nat),
      StackOK file vs levels bound → StackOK file (vs ++ more) levels bound := by
  intro levels
  induction levels with
  | nil => intro bound h; exact h
  | cons lvl rest ih =>
    intro bound h
    exact ⟨h.1, ChainCovers_mono_vs _ _ _ _ _ h.2.1, ih _ h.2.2⟩

theorem offsetsBelow_extend (file : BlockFile) (off sz : Nat) (b : Block)
    (hof : offsetsBelow file off) (hsz : 0 < sz) :
    offsetsBelow (file ++ [(off, b)]) (off + sz) := by
  intro x hx
  rcases List.mem_append.mp hx with hx | hx
  · have := hof x hx; omega
  · simp only [List.mem_singleton] at hx
    subst hx
    simp only
    omega

theorem headD_fst_eq_headKeyD (lvl : List (Nat × BlockPointer)) (e : Nat × BlockPointer)
    (d : Nat) : ((lvl ++ [e]).headD e).1 = headKeyD (lvl ++ [e]) d := by
  cases lvl <;> rfl

/-- Correctness of recording an entry in the level stack: if the stack
covers everything below the entry's key and the entry covers up to
`nb`, the updated stack (with any blocks it flushed) covers everything
below `nb`, and the file only grew at fresh offsets. -/
theorem pushEntry_ok (budget : Nat) (vs : List Nat) :
    ∀ (levels : List (List (Nat × BlockPointer))) (e : Nat × BlockPointer)
      (file : BlockFile) (off nb : Nat)
      (lvls' : List (List (Nat × BlockPointer))) (file' : BlockFile) (off' : Nat),
      StackOK file vs levels e.1 →
      Covers file e.2 vs e.1 nb →
      e.1 < nb →
      offsetsBelow file off →
      pushEntry budget levels e file off = (lvls', file', off') →
      StackOK file' vs lvls' nb ∧ offsetsBelow file' off' ∧
        ∃ ext, file' = file ++ ext := by
  intro levels
  induction levels with
  | nil =>
    intro e file off nb lvls' file' off' hstack hcov hlt hof hpush
    simp only [pushEntry, Prod.mk.injEq] at hpush
    obtain ⟨h1, h2, h3⟩ := hpush
    subst h1; subst h2; subst h3
    refine ⟨⟨⟨hlt, trivial⟩, ⟨hcov, trivial⟩, hstack⟩, hof, [], by simp⟩
  | cons lvl rest ih =>
    intro e file off nb lvls' file' off' hstack hcov hlt hof hpush
    obtain ⟨hkb, hcc, hrest⟩ := hstack
    have hKB : KeysBelow (lvl ++ [e]) nb := KeysBelow_append lvl e nb hkb hlt
    have hCC : ChainCovers file vs (lvl ++ [e]) nb := ChainCovers_append file vs lvl e nb hcc hcov
    simp only [pushEntry] at hpush
    split at hpush
    · -- the level overflowed: it is flushed and its locator promoted
      rename_i hbudget
      cases hsplit : lvl ++ [e] with
      | nil => exact absurd hsplit (by simp)
      | cons a tail =>
        rw [hsplit] at hpush hKB hCC
        set sz := indexBlockSize (a :: tail) with hsz
        set file1 := file ++ [(off, Block.index (a :: tail))] with hfile1
        have hlook : lookupBlock file1 off = some (.index (a :: tail)) :=
          lookup_append_self file off _ hof
        have hCC1 : ChainCovers file1 vs (a :: tail) nb :=
          ChainCovers_mono_file _ _ _ _ _ hCC
        have hcovB : Covers file1 ⟨off, sz⟩ vs a.1 nb :=
          index_block_covers file1 off sz a tail nb vs hlook hKB hCC1
        have haNb : a.1 < nb := KeysBelow_lt _ nb hKB a (List.mem_cons_self _ _)
        have hhead : headKeyD lvl e.1 = a.1 := by
          have h1 := headKeyD_append lvl e e.1
          rw [hsplit] at h1
          rw [← h1]
          rfl
        have hrest1 : StackOK file1 vs rest a.1 := by
          rw [← hhead]
          exact StackOK_mono_file _ _ _ _ _ hrest
        have hof1 : offsetsBelow file1 (off + sz) :=
          offsetsBelow_extend file off sz _ hof (indexBlockSize_pos _)
        have hfk : ((a :: tail).headD e).1 = a.1 := rfl
        rw [hfk] at hpush
        cases hout : pushEntry budget rest (a.1, ⟨off, sz⟩) file1 (off + sz) with
        | mk r1 r2 =>
          obtain ⟨r2, r3⟩ := r2
          rw [hout] at hpush
          simp only [Prod.mk.injEq] at hpush
          obtain ⟨h1, h2, h3⟩ := hpush
          subst h1; subst h2; subst h3
          obtain ⟨S1, S2, ext2, hext⟩ :=
            ih (a.1, ⟨off, sz⟩) file1 (off + sz) nb r1 r2 r3 hrest1 hcovB haNb hof1 hout
          refine ⟨⟨trivial, trivial, S1⟩, S2, ?_⟩
          refine ⟨[(off, Block.index (a :: tail))] ++ ext2, ?_⟩
          rw [hext, hfile1, List.append_assoc]
    · -- no overflow: the entry stays pending in this level
      simp only [Prod.mk.injEq] at hpush
      obtain ⟨h1, h2, h3⟩ := hpush
      subst h1; subst h2; subst h3
      refine ⟨⟨hKB, hCC, ?_⟩, hof, [], by simp⟩
      rw [headKeyD_append]
      exact hrest

/-- Session invariant: the pending leaf holds exactly the appended values
from `leafFirstKey` on, the sink offsets stay below the write position,
and the level stack covers every key below `leafFirstKey`. -/
def goodTree (vs : List Nat) (t : TreeBuilder) : Prop :=
  t.leafFirstKey ≤ vs.length ∧
  t.leafv = vs.drop t.leafFirstKey ∧
  offsetsBelow t.file t.off ∧
  StackOK t.file vs t.levels t.leafFirstKey

theorem goodTree_init : goodTree [] initTree :=
  ⟨Nat.le_refl 0, rfl, fun x hx => absurd hx (List.not_mem_nil x), rfl⟩

theorem Append_good (budget : Nat) (vs : List Nat) (t : TreeBuilder) (v : Nat)
    (hg : goodTree vs t) : goodTree (vs ++ [v]) (t.Append budget v) := by
  obtain ⟨hfk, hleaf, hof, hstack⟩ := hg
  have hdrop : t.leafv ++ [v] = (vs ++ [v]).drop t.leafFirstKey := by
    rw [List.drop_append_of_le_length hfk, hleaf]
  have hlen : t.leafFirstKey + (t.leafv ++ [v]).length = (vs ++ [v]).length := by
    rw [hleaf]
    simp only [List.length_append, List.length_drop, List.length_cons, List.length_nil]
    omega
  simp only [TreeBuilder.Append]
  split
  · -- the leaf block flushes
    rename_i hbudget
    set sz := leafBlockSize (t.leafv ++ [v]) with hsz
    set file1 := t.file ++ [(t.off, Block.leaf t.leafFirstKey (t.leafv ++ [v]))] with hfile1
    have hlook : lookupBlock file1 t.off
        = some (.leaf t.leafFirstKey ((vs ++ [v]).drop t.leafFirstKey)) := by
      rw [← hdrop]
      exact lookup_append_self t.file t.off _ hof
    have hcovL : Covers file1 ⟨t.off, sz⟩ (vs ++ [v]) t.leafFirstKey (vs ++ [v]).length :=
      leaf_covers file1 t.off sz t.leafFirstKey (vs ++ [v]) hlook
    have hstack1 : StackOK file1 (vs ++ [v]) t.levels t.leafFirstKey :=
      StackOK_mono_file _ _ _ _ _ (StackOK_mono_vs _ _ _ _ _ hstack)
    have hfklt : t.leafFirstKey < (vs ++ [v]).length := by
      simp only [List.length_append, List.length_cons, List.length_nil]
      omega
    have hof1 : offsetsBelow file1 (t.off + sz) :=
      offsetsBelow_extend t.file t.off sz _ hof (leafBlockSize_pos _)
    cases hout : pushEntry budget t.levels (t.leafFirstKey, ⟨t.off, sz⟩) file1 (t.off + sz) with
    | mk r1 r2 =>
      obtain ⟨r2, r3⟩ := r2
      obtain ⟨S1, S2, ext, hext⟩ :=
        pushEntry_ok budget (vs ++ [v]) t.levels (t.leafFirstKey, ⟨t.off, sz⟩) file1
          (t.off + sz) (vs ++ [v]).length r1 r2 r3 hstack1 hcovL hfklt hof1 hout
      refine ⟨?_, ?_, S2, ?_⟩
      · simp only
        omega
      · simp only
        rw [hlen, List.drop_length]
      · simp only
        rw [hlen]
        exact S1
  · -- no flush: the value stays pending
    refine ⟨?_, hdrop, hof, ?_⟩
    · simp only [List.length_append, List.length_cons, List.length_nil]
      omega
    · exact StackOK_mono_vs _ _ _ _ _ hstack

theorem appendAll_good (budget : Nat) (vs : List Nat) :
    ∀ (vs0 : List Nat) (t : TreeBuilder), goodTree vs0 t →
      goodTree (vs0 ++ vs) (appendAll budget t vs) := by
  induction vs with
  | nil =>
    intro vs0 t h
    simpa [appendAll] using h
  | cons v rest ih =>
    intro vs0 t h
    have h2 := ih (vs0 ++ [v]) (t.Append budget v) (Append_good budget vs0 t v h)
    simpa [appendAll, List.append_assoc] using h2

/-- Correctness of the bottom-up final flush: given a stack covering
everything below the carried entry's key and a carry covering the rest,
the returned root locator covers every appended key.  With no data at
all the root is absent. -/
theorem finishUp_ok (vs : List Nat) :
    ∀ (levels : List (List (Nat × BlockPointer))) (carry : Option (Nat × BlockPointer))
      (file : BlockFile) (off : Nat) (r : Option BlockPointer)
      (file' : BlockFile) (off' : Nat),
      (match carry with
       | some e => StackOK file vs levels e.1 ∧ Covers file e.2 vs e.1 vs.length ∧
           e.1 < vs.length
       | none => StackOK file vs levels vs.length) →
      offsetsBelow file off →
      finishUp levels carry file off = (r, file', off') →
      (vs = [] ∧ r = none) ∨
        (∃ root, r = some root ∧ Covers file' root vs 0 vs.length) := by
  intro levels
  induction levels with
  | nil =>
    intro carry file off r file' off' hpre hof hfin
    cases carry with
    | none =>
      simp only [finishUp, Prod.mk.injEq] at hfin
      obtain ⟨h1, h2, h3⟩ := hfin
      subst h1; subst h2; subst h3
      left
      have hlen : vs.length = 0 := hpre
      exact ⟨List.length_eq_zero.mp hlen, rfl⟩
    | some e =>
      obtain ⟨hstack, hcov, hlt⟩ := hpre
      simp only [finishUp, Prod.mk.injEq] at hfin
      obtain ⟨h1, h2, h3⟩ := hfin
      subst h1; subst h2; subst h3
      right
      refine ⟨e.2, rfl, ?_⟩
      have h0 : e.1 = 0 := hstack
      rw [h0] at hcov
      exact hcov
  | cons lvl rest ih =>
    intro carry file off r file' off' hpre hof hfin
    have hfacts : KeysBelow (lvl ++ carry.toList) vs.length ∧
        ChainCovers file vs (lvl ++ carry.toList) vs.length ∧
        StackOK file vs rest (headKeyD (lvl ++ carry.toList) vs.length) := by
      cases carry with
      | none =>
        obtain ⟨hkb, hcc, hrest⟩ := hpre
        simpa [Option.toList] using ⟨hkb, hcc, hrest⟩
      | some e =>
        obtain ⟨⟨hkb, hcc, hrest⟩, hcov, hlt⟩ := hpre
        simp only [Option.toList]
        refine ⟨KeysBelow_append lvl e _ hkb hlt,
          ChainCovers_append file vs lvl e _ hcc hcov, ?_⟩
        rw [headKeyD_append]
        exact hrest
    simp only [finishUp] at hfin
    cases hsplit : lvl ++ carry.toList with
    | nil =>
      rw [hsplit] at hfin hfacts
      simp only [] at hfin
      exact ih none file off r file' off' hfacts.2.2 hof hfin
    | cons a tail =>
      rw [hsplit] at hfin hfacts
      simp only [] at hfin
      set sz := indexBlockSize (a :: tail) with hsz
      set file1 := file ++ [(off, Block.index (a :: tail))] with hfile1
      have hlook : lookupBlock file1 off = some (.index (a :: tail)) :=
        lookup_append_self file off _ hof
      have hCC1 : ChainCovers file1 vs (a :: tail) vs.length :=
        ChainCovers_mono_file _ _ _ _ _ hfacts.2.1
      have hcovB : Covers file1 ⟨off, sz⟩ vs a.1 vs.length :=
        index_block_covers file1 off sz a tail vs.length vs hlook hfacts.1 hCC1
      have haLt : a.1 < vs.length :=
        KeysBelow_lt _ _ hfacts.1 a (List.mem_cons_self _ _)
      have hrest1 : StackOK file1 vs rest a.1 :=
        StackOK_mono_file _ _ _ _ _ hfacts.2.2
      have hof1 : offsetsBelow file1 (off + sz) :=
        offsetsBelow_extend file off sz _ hof (indexBlockSize_pos _)
      exact ih (some (a.1, ⟨off, sz⟩)) file1 (off + sz) r file' off'
        ⟨hrest1, hcovB, haLt⟩ hof1 hfin

/-- A finished good session yields a root covering `[0, vs.length)`
unless nothing was appended. -/
theorem Finish_good (vs : List Nat) (t : TreeBuilder) (hg : goodTree vs t) :
    ∀ (r : Option BlockPointer) (file' : BlockFile) (off' : Nat),
      t.Finish = (r, file', off') →
      (vs = [] ∧ r = none) ∨
        (∃ root, r = some root ∧ Covers file' root vs 0 vs.length) := by
  obtain ⟨hfk, hleaf, hof, hstack⟩ := hg
  intro r file' off' hfin
  unfold TreeBuilder.Finish at hfin
  split at hfin
  · rename_i hempty
    have hnil : vs.drop t.leafFirstKey = [] := by
      rw [← hleaf]
      exact List.isEmpty_iff.mp hempty
    have hfkeq : t.leafFirstKey = vs.length := by
      have := congrArg List.length hnil
      simp only [List.length_drop, List.length_nil] at this
      omega
    apply finishUp_ok vs t.levels none t.file t.off r file' off' ?_ hof hfin
    rw [← hfkeq]
    exact hstack
  · rename_i hne
    simp only [] at hfin
    have hfklt : t.leafFirstKey < vs.length := by
      have hnil : vs.drop t.leafFirstKey ≠ [] := by
        rw [← hleaf]
        intro hc
        rw [hc] at hne
        exact hne rfl
      have := List.length_drop t.leafFirstKey vs
      have hpos : 0 < (vs.drop t.leafFirstKey).length := List.length_pos.mpr hnil
      omega
    set sz := leafBlockSize t.leafv with hsz
    set file1 := t.file ++ [(t.off, Block.leaf t.leafFirstKey t.leafv)] with hfile1
    have hlook : lookupBlock file1 t.off
        = some (.leaf t.leafFirstKey (vs.drop t.leafFirstKey)) := by
      rw [← hleaf]
      exact lookup_append_self t.file t.off _ hof
    have hcovL : Covers file1 ⟨t.off, sz⟩ vs t.leafFirstKey vs.length :=
      leaf_covers file1 t.off sz t.leafFirstKey vs hlook
    have hstack1 : StackOK file1 vs t.levels t.leafFirstKey :=
      StackOK_mono_file _ _ _ _ _ hstack
    have hof1 : offsetsBelow file1 (t.off + sz) :=
      offsetsBelow_extend t.file t.off sz _ hof (leafBlockSize_pos _)
    exact finishUp_ok vs t.levels (some (t.leafFirstKey, ⟨t.off, sz⟩)) file1 (t.off + sz)
      r file' off' ⟨hstack1, hcovL, hfklt⟩ hof1 hfin

theorem Writer_appendAll_appending (vs : List Nat) :
    ∀ (w : Writer), w.state = .appending →
      Writer.appendAll w vs =
        .ok { state := .appending, budget := w.budget,
              tree := appendAll w.budget w.tree vs, ident := w.ident } := by
  induction vs with
  | nil =>
    intro w hw
    obtain ⟨st, bu, tr, idt⟩ := w
    simp only [Writer.state] at hw
    subst hw
    rfl
  | cons v rest ih =>
    intro w hw
    obtain ⟨st, bu, tr, idt⟩ := w
    simp only [Writer.state] at hw
    subst hw
    simp only [Writer.appendAll, Writer.Append]
    rw [ih _ rfl]
    rfl

/-- The end-to-end session of `TestCFile.TestWriter`: open a writer,
start it, append all values, finish. -/
def writeFile (budget : Nat) (ident : String) (vs : List Nat) :
    Except Status (Writer × FileMetadata × BlockFile) :=
  match (Writer.init budget ident).Start with
  | .ok w1 =>
    match w1.appendAll vs with
    | .ok w2 => w2.Finish
    | .error e => .error e
  | .error e => .error e

/-- C3: appending any nonempty strictly increasing key sequence (the
sequential logical keys `0, 1, …`) through a Writer and finishing
succeeds, leaves the writer finished, records exactly one root locator
in the closing metadata, and that root resolves every appended key to
its value through the chain of index blocks. -/
theorem Writer_end_to_end (budget : Nat) (ident : String) (vs : List Nat)
    (hne : vs ≠ []) :
    ∃ (w' : Writer) (meta : FileMetadata) (file : BlockFile),
      writeFile budget ident vs = .ok (w', meta, file) ∧
      w'.state = .finished ∧
      ∀ k, k < vs.length →
        ∃ fuel v, vs[k]? = some v ∧ resolve file fuel meta.root k = some v := by
  obtain ⟨v, rest, rfl⟩ : ∃ v rest, vs = v :: rest := by
    cases vs with
    | nil => exact absurd rfl hne
    | cons v rest => exact ⟨v, rest, rfl⟩
  have happ : Writer.appendAll ⟨.started, budget, initTree, ident⟩ (v :: rest)
      = .ok { state := .appending, budget := budget,
              tree := appendAll budget initTree (v :: rest), ident := ident } := by
    simp only [Writer.appendAll, Writer.Append]
    rw [Writer_appendAll_appending rest _ rfl]
    rfl
  have hgood : goodTree (v :: rest) (appendAll budget initTree (v :: rest)) := by
    have := appendAll_good budget (v :: rest) [] initTree goodTree_init
    simpa using this
  cases hfin : (appendAll budget initTree (v :: rest)).Finish with
  | mk r rest2 =>
    obtain ⟨file', off'⟩ := rest2
    rcases Finish_good (v :: rest) _ hgood r file' off' hfin with ⟨hnil, _⟩ | ⟨root, hr, hcov⟩
    · cases hnil
    · subst hr
      refine ⟨⟨.finished, budget, appendAll budget initTree (v :: rest), ident⟩,
        ⟨ident, root⟩, file', ?_, rfl, ?_⟩
      · unfold writeFile
        rw [show (Writer.init budget ident).Start
            = .ok ⟨.started, budget, initTree, ident⟩ from rfl]
        simp only []
        rw [happ]
        simp only []
        unfold Writer.Finish
        simp only []
        rw [hfin]
      · intro k hk
        exact hcov k (Nat.zero_le k) hk

/-- Witness for C3: a six-value session with a 30-byte budget (small
enough to force leaf flushes and a multi-entry index). -/
theorem Writer_end_to_end_witness :
    ∃ (w' : Writer) (meta : FileMetadata) (file : BlockFile),
      writeFile 30 "test" [10, 11, 12, 13, 14, 15] = .ok (w', meta, file) ∧
      w'.state = .finished ∧
      ∀ k, k < 6 →
        ∃ fuel v, [10, 11, 12, 13, 14, 15][k]? = some v ∧
          resolve file fuel meta.root k = some v := by
  have h := Writer_end_to_end 30 "test" [10, 11, 12, 13, 14, 15] (by simp)
  simpa using h

end Kudu
